import Mathlib

set_option linter.unusedSectionVars false

/-!
Verification of the raw lock-free HAMT core (src/raw/mod.rs of the contrie
repository) against its natural-language specification.

The embedding is a sequentialization of the concurrent code: a single thread
runs each operation to completion, so every compare-and-set succeeds and no
cell is ever observed CONDEMNED mid-traversal.  The fragments whose claims
talk about CAS failure, retirement and condemnation (prune, the replace
closure, the post-removal prune walk) are embedded separately with the CAS
outcome as an explicit oracle parameter.

Payloads are an abstract type P with a key projection keyOf : P -> K, and the
hasher is an abstract function hf : K -> Nat (the source uses u64 hashes; the
only place the width matters is the literal 64 in the split guard
shift < mem::size_of_val(hash) * 8, which we keep as the constant
HASH_BITS = 64).
-/

/-- LEVEL_BITS from src/raw/mod.rs line 29. -/
def LEVEL_BITS : Nat := 4

/-- LEVEL_MASK (0b1111) from src/raw/mod.rs line 30. -/
def LEVEL_MASK : Nat := 15

/-- LEVEL_CELLS from src/raw/mod.rs line 31. -/
def LEVEL_CELLS : Nat := 16

/-- MAX_LEVELS = size_of(u64)*8 / LEVEL_BITS from src/raw/mod.rs line 32. -/
def MAX_LEVELS : Nat := 64 / LEVEL_BITS

/-- Number of bits of a hash, mem::size_of_val(&hash) * 8 in the source. -/
def HASH_BITS : Nat := 64

/--
A tagged node pointer, as seen through its tag bits: the null pointer, a
pointer with the DATA flag to a leaf bucket (a list of payloads, the
SmallVec Data of the source), or an untagged pointer to an inner node of
LEVEL_CELLS atomic cells.  Cells are modelled as a function from the cell
index; only indices below LEVEL_CELLS are ever produced (every index in the
source is masked with LEVEL_MASK).  The CONDEMNED bit never appears inside a
quiescent sequential tree; where a claim is about it, the fragment models
below carry it explicitly.
-/
inductive Node (P : Type) : Type where
  | null : Node P
  | data (l : List P) : Node P
  | inner (cells : Nat → Node P) : Node P

/-- Test for the null pointer (Shared::is_null in the source). -/
def Node.isNull {P : Type} : Node P → Bool
  | .null => true
  | _ => false

/-- Test for the DATA tag bit (NodeFlags::DATA in the source). -/
def Node.isData {P : Type} : Node P → Bool
  | .data _ => true
  | _ => false

/-- Cell array of a fresh Inner (Inner::default) with a single slot set,
as built by the split step of Raw::traverse (lines 394-395). -/
def cellsSingle {P : Type} (i : Nat) (v : Node P) : Nat → Node P :=
  fun j => if j = i then v else .null

/-- Store into one cell of an inner node (a successful CAS on that cell). -/
def updateCell {P : Type} (cells : Nat → Node P) (i : Nat) (v : Node P) :
    Nat → Node P :=
  fun j => if j = i then v else cells j

/-- Depth of a tree: 0 for null, 1 for a leaf bucket, 1 + deepest child for
an inner node.  A bucket hanging directly off the root has depth 1. -/
def Node.depth {P : Type} : Node P → Nat
  | .null => 0
  | .data _ => 1
  | .inner cells =>
      1 + ((List.range LEVEL_CELLS).map fun i => (cells i).depth).foldr max 0

/-- Count of non-null cells of an inner node, as in Raw::remove lines
570-574. -/
def countNonNull {P : Type} (cells : Nat → Node P) : Nat :=
  ((List.range LEVEL_CELLS).filter fun i => !(cells i).isNull).length

/-- PruneResult from src/raw/mod.rs lines 174-185. -/
inductive PruneResult : Type where
  | Null : PruneResult
  | Singleton : PruneResult
  | Copy : PruneResult
  | CasFail : PruneResult
deriving DecidableEq

/--
A tagged pointer as captured from an atomic cell: the CONDEMNED bit plus the
pointee.  The DATA bit is determined by the pointee (Node.data), mirroring
invariant 1 of the spec.  Used by the fragment models of prune, which is the
only code that observes and manipulates the CONDEMNED bit.
-/
structure PCell (P : Type) : Type where
  condemned : Bool
  target : Node P

/--
The condemnation scan of Raw::prune (lines 240-272), written as a recursion
over the list of captured cell values carrying the loop state
(allow_contract, child_cnt, last_leaf, new_child).  Each iteration of the
source ORs CONDEMNED into the cell and captures the previous value; the
captured value with the CONDEMNED bit cleared is here c.target.  Null cells
are skipped; a DATA cell bumps the count and becomes the last leaf; an
inner cell bumps the count and forbids edge contraction.  The cleared value
is appended to the new_child cell list in all three cases. -/
def pruneScanGo {P : Type} :
    Bool → Nat → Option (Node P) → List (Node P) → List (PCell P) →
    Bool × Nat × Option (Node P) × List (Node P)
  | ac, cnt, ll, acc, [] => (ac, cnt, ll, acc)
  | ac, cnt, ll, acc, c :: rest =>
      let gc := c.target
      if gc.isNull then pruneScanGo ac cnt ll (acc ++ [gc]) rest
      else if gc.isData then pruneScanGo ac (cnt + 1) (some gc) (acc ++ [gc]) rest
      else pruneScanGo false (cnt + 1) ll (acc ++ [gc]) rest

/-- Raw::prune's scan started with the initial loop state of lines 240-243:
allow_contract = true, child_cnt = 0, last_leaf = None, new_child empty. -/
def pruneScan {P : Type} (cells : List (PCell P)) :
    Bool × Nat × Option (Node P) × List (Node P) :=
  pruneScanGo true 0 none [] cells

/--
The replacement decision of Raw::prune (lines 274-293): from
(allow_contract, child_cnt, last_leaf), choose the pointer to install in the
parent, the PruneResult, and the cleanup obligation (the freshly allocated
copy, present only in the Copy case).  (true, 1, Some leaf) contracts the
edge onto the lone leaf; (_, 0, None) installs null; anything else installs
a fresh inner node whose cells are the captured values with CONDEMNED
cleared. -/
def pruneReplacement {P : Type} (cells : List (PCell P)) :
    Node P × PruneResult × Option (Node P) :=
  match pruneScan cells with
  | (ac, cnt, ll, acc) =>
      match ac, cnt, ll with
      | true, 1, some leaf => (leaf, .Singleton, none)
      | _, 0, none => (.null, .Null, none)
      | _, _, _ =>
          let copy : Node P := .inner fun i => acc.getD i .null
          (copy, .Copy, some copy)

/--
Outcome record of one call to Raw::prune: the returned PruneResult, the new
value CASed into the parent cell (none when the CAS failed and the cell is
untouched), the nodes freed immediately, and the nodes handed to
defer_destroy. -/
structure PruneOut (P : Type) : Type where
  res : PruneResult
  parentNew : Option (Node P)
  freed : List (Node P)
  deferred : List (Node P)

/--
The commit step of Raw::prune (lines 295-316), with the outcome of the
parent CAS as an oracle (another thread may have changed the parent cell
concurrently).  child is the old child pointer the parent held.  On CAS
success the old child is defer-destroyed and the decided result returned;
on failure the fresh copy (if one was produced) is freed, nothing is
deferred, the parent is untouched, and the result is CasFail. -/
def pruneModel {P : Type} (child : Node P) (cells : List (PCell P))
    (casOk : Bool) : PruneOut P :=
  let r := pruneReplacement cells
  if casOk then
    { res := r.2.1, parentNew := some r.1, freed := [], deferred := [child] }
  else
    { res := .CasFail, parentNew := none, freed := r.2.2.toList, deferred := [] }

/--
Raw::prune including its fatal entry and pre-CAS checks: the assert that the
child pointer does not carry the DATA flag (lines 235-238), the expect that
it is not null (line 239), and the assert that its tag is 0, i.e. not
CONDEMNED either (lines 295-299).  A violated check aborts the process;
here that is the value none. -/
def pruneChecked {P : Type} (child : PCell P) (cells : List (PCell P))
    (casOk : Bool) : Option (PruneOut P) :=
  if child.target.isData then none
  else if child.target.isNull then none
  else if child.condemned then none
  else some (pruneModel child.target cells casOk)

/--
nf (src/raw/mod.rs lines 54-56): decode the two low tag bits of a pointer
into NodeFlags (CONDEMNED, DATA); NodeFlags::from_bits returns None — and
the expect aborts — when any bit outside 0b11 is set. -/
def nfModel (tag : Nat) : Option (Bool × Bool) :=
  if tag < 4 then some (tag &&& 1 == 1, tag &&& 2 == 2) else none

/--
The CONDEMNED branch of Raw::traverse (lines 356-365): prune the recorded
(parent, child) edge and restart.  When no parent was recorded the
condemned cell is the root, which is impossible under the invariants, and
the expect (line 363) aborts: the value none. -/
def condemnedRestartInsert {P : Type}
    (parentRec : Option (PCell P × List (PCell P))) (casOk : Bool) :
    Option (PruneOut P) :=
  match parentRec with
  | none => none
  | some pr => pruneChecked pr.1 pr.2 casOk

/--
The CONDEMNED branch of Raw::remove (lines 515-519): pop the deepest
recorded level (the list is deepest-first here, matching ArrayVec::pop) and
prune it, restarting after.  An empty stack means the root was condemned
and the expect (line 517) aborts: the value none. -/
def condemnedRestartRemove {P : Type}
    (levels : List (PCell P × List (PCell P))) (casOk : Bool) :
    Option (PruneOut P) :=
  match levels with
  | [] => none
  | pr :: _ => pruneChecked pr.1 pr.2 casOk

/--
The replace closure of Raw::traverse (lines 331-354), with the CAS outcome
as an oracle.  Returns the value held by the cell afterwards, the nodes
handed to defer_destroy, and the nodes freed immediately.  On success the
previous value is defer-destroyed only when it is non-null and
delete_previous was requested (the source then asserts it carries DATA).
On failure the candidate is freed — through drop_data when it carries DATA,
through the dropped Err otherwise — and the cell keeps its old value. -/
def replaceModel {P : Type} (node : Node P) (withNode : Node P)
    (deletePrevious : Bool) (casOk : Bool) :
    Node P × List (Node P) × List (Node P) :=
  if casOk then
    if (!node.isNull) && deletePrevious then (withNode, [node], [])
    else (withNode, [], [])
  else (node, [], [withNode])

/--
The fresh one-level inner node built by the split branch of Raw::traverse
(lines 390-396): all cells null except the one at index
(other_hash >> shift) & LEVEL_MASK, which receives the existing
single-payload bucket. -/
def splitNode {P K : Type} (hf : K → Nat) (keyOf : P → K) (q : P)
    (shift : Nat) : Node P :=
  .inner (cellsSingle ((hf (keyOf q) >>> shift) &&& LEVEL_MASK) (.data [q]))

/-- TraverseMode from src/raw/mod.rs lines 168-172. -/
inductive TraverseMode : Type where
  | Overwrite : TraverseMode
  | IfMissing : TraverseMode
deriving DecidableEq

/--
TraverseState from src/raw/mod.rs lines 121-125.  The transient Empty state
only exists inside TraverseState::payload (mem::replace) and is not
representable here; the two stable states are Created and Future.
-/
inductive TState (P K : Type) : Type where
  | created (p : P) : TState P K
  | future (k : K) (ctor : K → P) : TState P K

/-- TraverseState::key (lines 128-134): the key of a created payload, or the
stored key of a deferred constructor. -/
def TState.keyGet {P K : Type} (keyOf : P → K) : TState P K → K
  | .created p => keyOf p
  | .future k _ => k

/-- TraverseState::payload (lines 135-147), instrumented with the number of
constructor invocations this call performs (0 or 1).  A Created state clones
its payload; a Future state invokes the constructor once and becomes
Created. -/
def TState.payload {P K : Type} : TState P K → TState P K × P × Nat
  | .created p => (.created p, p, 0)
  | .future k ctor => (.created (ctor k), ctor k, 1)

/-- TraverseState::into_payload (lines 153-159), instrumented like
TState.payload. -/
def TState.intoPayload {P K : Type} : TState P K → P × Nat
  | .created p => (p, 0)
  | .future k ctor => (ctor k, 1)

/-- TraverseState::into_return (lines 160-165): Overwrite returns None,
IfMissing returns the payload. -/
def TState.intoReturn {P K : Type} (mode : TraverseMode) (st : TState P K) :
    Option P × Nat :=
  match mode with
  | .Overwrite => (none, 0)
  | .IfMissing => (let pc := st.intoPayload; (some pc.1, pc.2))

section TrieModel

variable {P K : Type} [DecidableEq K]

/--
The general data-node branch of Raw::traverse (lines 401-427): look up the
first payload with the target key, and unless the key is present with mode
IfMissing, rebuild the bucket with every other-keyed payload kept (in order)
and the new payload appended, returning old.or_else(into_return).  Returns
the resulting bucket contents, the returned option, and the number of
constructor invocations. -/
def bucketStep (keyOf : P → K) (st : TState P K) (mode : TraverseMode)
    (l : List P) : List P × Option P × Nat :=
  let k := st.keyGet keyOf
  let old := l.find? fun q => decide (keyOf q = k)
  if old.isNone || (mode = TraverseMode.Overwrite) then
    let spc := st.payload
    let bucket := (l.filter fun q => decide (¬ keyOf q = k)) ++ [spc.2.1]
    match old with
    | some o => (bucket, some o, spc.2.2)
    | none =>
        let rc := spc.1.intoReturn mode
        (bucket, rc.1, spc.2.2 + rc.2)
  else
    (l, old, 0)

/--
Sequentialization of the Raw::traverse loop (lines 318-438).  Every CAS
succeeds and no CONDEMNED cell is encountered (those paths only arise under
concurrent interference; the fragments they involve are modelled
separately).  fuel bounds the number of loop iterations: the source loop
retries after a bucket split, so the recursion is not structural; any
sequential traversal takes at most 2*MAX_LEVELS+1 iterations, and the
public wrappers pass 99.

Cases, mirroring the source:
the null case installs a fresh single-payload bucket and returns
into_return; the single-payload data case with a foreign key and remaining
hash bits (shift < 64) installs one fresh inner level whose cell at
(other_hash >> shift) & LEVEL_MASK keeps the old bucket and re-runs the loop
on that cell; any other data case is bucketStep; an inner node descends into
cell (hash >> shift) & LEVEL_MASK with shift grown by LEVEL_BITS.
Returns (new subtree for this cell, returned option, constructor
invocations), or none if fuel runs out. -/
def traverseGo (hf : K → Nat) (keyOf : P → K) :
    Nat → Nat → TState P K → TraverseMode → Node P → Nat →
    Option (Node P × Option P × Nat)
  | 0, _, _, _, _, _ => none
  | _ + 1, _, st, mode, .null, _ =>
      let spc := st.payload
      let rc := spc.1.intoReturn mode
      some (.data [spc.2.1], rc.1, spc.2.2 + rc.2)
  | fuel + 1, hash, st, mode, .data l, shift =>
      match l with
      | [q] =>
          if (¬ keyOf q = st.keyGet keyOf) ∧ shift < HASH_BITS then
            traverseGo hf keyOf fuel hash st mode (splitNode hf keyOf q shift)
              shift
          else
            let r := bucketStep keyOf st mode l
            some (.data r.1, r.2.1, r.2.2)
      | _ =>
          let r := bucketStep keyOf st mode l
          some (.data r.1, r.2.1, r.2.2)
  | fuel + 1, hash, st, mode, .inner cells, shift =>
      let bits := (hash >>> shift) &&& LEVEL_MASK
      match traverseGo hf keyOf fuel hash st mode (cells bits)
          (shift + LEVEL_BITS) with
      | none => none
      | some r => some (.inner (updateCell cells bits r.1), r.2.1, r.2.2)

/-- Raw::insert (lines 215-221): traverse with a Created payload in
Overwrite mode.  Returns the new tree and the displaced payload. -/
def insertOp (hf : K → Nat) (keyOf : P → K) (t : Node P) (p : P) :
    Option (Node P × Option P) :=
  (traverseGo hf keyOf 99 (hf (keyOf p)) (.created p) .Overwrite t 0).map
    fun r => (r.1, r.2.1)

/-- Raw::get_or_insert_with (lines 467-477): traverse with a Future state in
IfMissing mode; the traversal must return a payload.  Returns the new tree,
the payload, and the number of constructor invocations. -/
def getOrInsertWithOp (hf : K → Nat) (keyOf : P → K) (t : Node P) (k : K)
    (ctor : K → P) : Option (Node P × P × Nat) :=
  match traverseGo hf keyOf 99 (hf k) (.future k ctor) .IfMissing t 0 with
  | some (t2, some p, c) => some (t2, p, c)
  | _ => none

/-- Raw::get (lines 440-465): pure descent, shifting the hash right by
LEVEL_BITS per level, linear scan of the reached bucket. -/
def getOp (keyOf : P → K) (k : K) : Nat → Node P → Option P
  | _, .null => none
  | _, .data l => l.find? fun q => decide (keyOf q = k)
  | hash, .inner cells => getOp keyOf k (hash >>> LEVEL_BITS) (cells (hash &&& LEVEL_MASK))

/--
The single-pass bucket filter of Raw::remove (lines 526-540): walk the
bucket left to right, dropping every payload whose key matches and
remembering the last dropped one in deleted. -/
def removeScan (keyOf : P → K) (k : K) : List P → List P × Option P
  | [] => ([], none)
  | q :: rest =>
      let r := removeScan keyOf k rest
      if keyOf q = k then (r.1, r.2.orElse fun _ => some q)
      else (q :: r.1, r.2)

/-- View of an inner node's cell array as captured cell values for prune;
in a quiescent sequential tree no cell is condemned. -/
def pcellsOf {P : Type} (cells : Nat → Node P) : List (PCell P) :=
  (List.range LEVEL_CELLS).map fun i => { condemned := false, target := cells i }

/--
Sequentialization of Raw::remove (lines 479-594).  The descent records the
traversed inner levels; the recursion here unwinds them deepest-first,
which is exactly the order of the post-removal walk over the recorded level
stack (lines 563-591), so the walk is folded into the rebuild.  The third
component is the walking flag: true while the walk over the recorded levels
is still running.  At a bucket, a successful removal installs null (bucket
emptied) or the filtered bucket and starts the walk; a miss or a null cell
returns without walking.  At an inner level whose walk is still running,
the cheap count of non-null cells stops the walk when more than one child
remains; otherwise prune runs (sequentially its CAS succeeds, so the
decided replacement is installed) and the walk continues unless the result
was Copy. -/
def removeGo (keyOf : P → K) (k : K) (hash : Nat) :
    Node P → Nat → Node P × Option P × Bool
  | .null, _ => (.null, none, false)
  | .data l, _ =>
      let r := removeScan keyOf k l
      match r.2 with
      | none => (.data l, none, false)
      | some d => (if r.1.isEmpty then .null else .data r.1, some d, true)
  | .inner cells, shift =>
      let bits := (hash >>> shift) &&& LEVEL_MASK
      let r := removeGo keyOf k hash (cells bits) (shift + LEVEL_BITS)
      let cells2 := updateCell cells bits r.1
      if r.2.2 then
        if countNonNull cells2 > 1 then (.inner cells2, r.2.1, false)
        else
          let pr := pruneReplacement (pcellsOf cells2)
          if pr.2.1 = PruneResult.Copy then (pr.1, r.2.1, false)
          else (pr.1, r.2.1, true)
      else (.inner cells2, r.2.1, false)

/-- Raw::remove's public result: the new tree and the removed payload. -/
def removeOp (hf : K → Nat) (keyOf : P → K) (t : Node P) (k : K) :
    Node P × Option P :=
  let r := removeGo keyOf k (hf k) t 0
  (r.1, r.2.1)

/-- Raw::is_empty (lines 596-605): the root pointer is null. -/
def isEmptyOp {P : Type} (t : Node P) : Bool :=
  t.isNull

end TrieModel

/--
One level of the post-removal walk of Raw::remove as observed by the walking
thread: the cheap count of non-null cells it sees in the inner node, and the
result prune would report at this level (the prune outcome depends on
concurrent interference, so it is an oracle input here). -/
structure LevelObs : Type where
  nonNull : Nat
  pres : PruneResult

/--
The post-removal walk of Raw::remove (lines 563-591) over the recorded
levels, deepest level first, reporting the results of the prune calls it
performs in order.  A level with more than one non-null cell stops the walk
without pruning; otherwise prune runs, and a Copy result stops the walk
after it; any other result lets the walk continue upward. -/
def pruneWalk : List LevelObs → List PruneResult
  | [] => []
  | lv :: rest =>
      if lv.nonNull > 1 then []
      else if lv.pres = PruneResult.Copy then [PruneResult.Copy]
      else lv.pres :: pruneWalk rest

/-- Modelled from the spec: truncate a result list just after the first
Copy, since per section 4.D.5 a Copy outcome stops the upward walk. -/
def takeThroughCopy : List PruneResult → List PruneResult
  | [] => []
  | r :: rest => if r = PruneResult.Copy then [r] else r :: takeThroughCopy rest

/-- Modelled from the spec, section 4.D.5: prune runs exactly at the levels
of the longest prefix in which every inner node has at most one non-null
cell, truncated just after the first Copy result. -/
def specPruneWalk (ls : List LevelObs) : List PruneResult :=
  takeThroughCopy ((ls.takeWhile fun lv => lv.nonNull ≤ 1).map LevelObs.pres)

/-- Modelled from the spec (claim C6 wording): the non-null children among
the captured cell values, CONDEMNED cleared. -/
def nonNullChildren {P : Type} (cells : List (PCell P)) : List (Node P) :=
  (cells.map PCell.target).filter fun t => !t.isNull

/-- Iterate TraverseState::payload n times from a state, returning the final
state and the total number of constructor invocations. -/
def TState.payloadIter {P K : Type} : TState P K → Nat → TState P K × Nat
  | st, 0 => (st, 0)
  | st, n + 1 =>
      let r := st.payload
      let r2 := r.1.payloadIter n
      (r2.1, r.2.2 + r2.2)

/-- Upper bound on the constructor invocations a traversal state can still
cause: one for Future, none for Created. -/
def stCost {P K : Type} : TState P K → Nat
  | .created _ => 0
  | .future _ _ => 1

/-- The pathological hasher of the claim, NoHasher from the source's test
module (lines 649-665): finish always returns 0. -/
def constHash {K : Type} : K → Nat := fun _ => 0

/-- An iterated one-cell chain: n inner levels whose only non-null cell is
cell 0, ending in the given node.  Under the constant-zero hasher every
split cascade and every descent goes through cell 0, so these are the only
inner shapes that ever arise. -/
def chainK {P : Type} : Nat → Node P → Node P
  | 0, t => t
  | n + 1, t => .inner (cellsSingle 0 (chainK n t))

section Scenarios

variable {P K : Type} [DecidableEq K]

/-- The observable result of one operation. -/
inductive Out (P : Type) : Type where
  | opt (o : Option P) : Out P
  | bool (b : Bool) : Out P

/-- One public operation of the core: insert, get, remove,
get_or_insert_with, is_empty. -/
inductive COp (P K : Type) : Type where
  | ins (p : P) : COp P K
  | get (k : K) : COp P K
  | rem (k : K) : COp P K
  | goiw (k : K) (ctor : K → P) : COp P K
  | empt : COp P K

/-- Run one public operation of the sequential model on a tree. -/
def trieStep (hf : K → Nat) (keyOf : P → K) (t : Node P) :
    COp P K → Option (Node P × Out P)
  | .ins p => (insertOp hf keyOf t p).map fun r => (r.1, .opt r.2)
  | .get k => some (t, .opt (getOp keyOf k (hf k) t))
  | .rem k =>
      let r := removeOp hf keyOf t k
      some (r.1, .opt r.2)
  | .goiw k c =>
      (getOrInsertWithOp hf keyOf t k c).map fun r => (r.1, .opt (some r.2.1))
  | .empt => some (t, .bool (isEmptyOp t))

/-- Run a sequence of operations on a tree, collecting the results. -/
def trieRun (hf : K → Nat) (keyOf : P → K) :
    Node P → List (COp P K) → Option (Node P × List (Out P))
  | t, [] => some (t, [])
  | t, op :: ops =>
      match trieStep hf keyOf t op with
      | none => none
      | some r => (trieRun hf keyOf r.1 ops).map fun r2 => (r2.1, r.2 :: r2.2)

/-- Modelled from the spec: the reference mapping model of testable property
1 is a plain list of payloads; lookup is the first payload with the key. -/
def refFind (keyOf : P → K) (k : K) (l : List P) : Option P :=
  l.find? fun q => decide (keyOf q = k)

/-- Modelled from the spec, section 8 property 1 and section 6: one
operation on the reference mapping model, a list of payloads.  Insert
reports the payload previously stored under the key and replaces it;
remove deletes every payload under the key (reporting the last);
get_or_insert_with returns the stored payload or appends a constructed
one. -/
def refStep (keyOf : P → K) (l : List P) : COp P K → List P × Out P
  | .ins p =>
      ((l.filter fun q => decide (¬ keyOf q = keyOf p)) ++ [p],
        .opt (refFind keyOf (keyOf p) l))
  | .get k => (l, .opt (refFind keyOf k l))
  | .rem k =>
      (l.filter fun q => decide (¬ keyOf q = k),
        .opt ((l.filter fun q => decide (keyOf q = k)).getLast?))
  | .goiw k c =>
      match refFind keyOf k l with
      | some p => (l, .opt (some p))
      | none => (l ++ [c k], .opt (some (c k)))
  | .empt => (l, .bool l.isEmpty)

/-- Run a sequence of operations on the reference mapping model. -/
def refRun (keyOf : P → K) : List P → List (COp P K) → List P × List (Out P)
  | l, [] => (l, [])
  | l, op :: ops =>
      let r := refStep keyOf l op
      let r2 := refRun keyOf r.1 ops
      (r2.1, r.2 :: r2.2)

/--
The shapes a tree can have between operations under the constant-zero
hasher, together with the payload list it represents: the empty tree, a
single bucket at the root, or a single bucket below a full chain of
MAX_LEVELS one-cell inner nodes (the shape a split cascade leaves behind
once the 64 hash bits are exhausted). -/
inductive ConstInv {P : Type} : Node P → List P → Prop where
  | nil : ConstInv .null []
  | bucket (l : List P) : l ≠ [] → ConstInv (.data l) l
  | chain (l : List P) : l ≠ [] → ConstInv (chainK MAX_LEVELS (.data l)) l

end Scenarios

section Unfolding

variable {P K : Type} [DecidableEq K]

theorem traverseGo_null (hf : K → Nat) (keyOf : P → K) (fuel hash : Nat)
    (st : TState P K) (mode : TraverseMode) (shift : Nat) :
    traverseGo hf keyOf (fuel + 1) hash st mode .null shift =
      some (.data [st.payload.2.1], (st.payload.1.intoReturn mode).1,
        st.payload.2.2 + (st.payload.1.intoReturn mode).2) := rfl

theorem traverseGo_data_one (hf : K → Nat) (keyOf : P → K) (fuel hash : Nat)
    (st : TState P K) (mode : TraverseMode) (q : P) (shift : Nat) :
    traverseGo hf keyOf (fuel + 1) hash st mode (.data [q]) shift =
      if (¬ keyOf q = st.keyGet keyOf) ∧ shift < HASH_BITS then
        traverseGo hf keyOf fuel hash st mode (splitNode hf keyOf q shift) shift
      else
        some (.data (bucketStep keyOf st mode [q]).1,
          (bucketStep keyOf st mode [q]).2.1,
          (bucketStep keyOf st mode [q]).2.2) := rfl

theorem traverseGo_data_big (hf : K → Nat) (keyOf : P → K) (fuel hash : Nat)
    (st : TState P K) (mode : TraverseMode) (q1 q2 : P) (l : List P)
    (shift : Nat) :
    traverseGo hf keyOf (fuel + 1) hash st mode (.data (q1 :: q2 :: l)) shift =
      some (.data (bucketStep keyOf st mode (q1 :: q2 :: l)).1,
        (bucketStep keyOf st mode (q1 :: q2 :: l)).2.1,
        (bucketStep keyOf st mode (q1 :: q2 :: l)).2.2) := rfl

theorem traverseGo_data_nil (hf : K → Nat) (keyOf : P → K) (fuel hash : Nat)
    (st : TState P K) (mode : TraverseMode) (shift : Nat) :
    traverseGo hf keyOf (fuel + 1) hash st mode (.data ([] : List P)) shift =
      some (.data (bucketStep keyOf st mode []).1,
        (bucketStep keyOf st mode []).2.1,
        (bucketStep keyOf st mode []).2.2) := rfl

theorem traverseGo_inner (hf : K → Nat) (keyOf : P → K) (fuel hash : Nat)
    (st : TState P K) (mode : TraverseMode) (cells : Nat → Node P)
    (shift : Nat) :
    traverseGo hf keyOf (fuel + 1) hash st mode (.inner cells) shift =
      match traverseGo hf keyOf fuel hash st mode
          (cells ((hash >>> shift) &&& LEVEL_MASK)) (shift + LEVEL_BITS) with
      | none => none
      | some r =>
          some (.inner (updateCell cells ((hash >>> shift) &&& LEVEL_MASK) r.1),
            r.2.1, r.2.2) := rfl

theorem removeGo_inner (keyOf : P → K) (k : K) (hash : Nat)
    (cells : Nat → Node P) (shift : Nat) :
    removeGo keyOf k hash (.inner cells) shift =
      (let bits := (hash >>> shift) &&& LEVEL_MASK
       let r := removeGo keyOf k hash (cells bits) (shift + LEVEL_BITS)
       let cells2 := updateCell cells bits r.1
       if r.2.2 then
         if countNonNull cells2 > 1 then (.inner cells2, r.2.1, false)
         else
           let pr := pruneReplacement (pcellsOf cells2)
           if pr.2.1 = PruneResult.Copy then (pr.1, r.2.1, false)
           else (pr.1, r.2.1, true)
       else (.inner cells2, r.2.1, false)) := rfl

end Unfolding

section Helpers

variable {P K : Type} [DecidableEq K]

theorem payload_fst_created (st : TState P K) :
    st.payload.1 = .created st.payload.2.1 := by
  cases st <;> rfl

theorem payload_count_eq (st : TState P K) : st.payload.2.2 = stCost st := by
  cases st <;> rfl

theorem intoReturn_created_count (p : P) (mode : TraverseMode) :
    ((TState.created (K := K) p).intoReturn mode).2 = 0 := by
  cases mode <;> rfl

theorem bucketStep_count_le (keyOf : P → K) (st : TState P K)
    (mode : TraverseMode) (l : List P) :
    (bucketStep keyOf st mode l).2.2 ≤ stCost st := by
  simp only [bucketStep]
  split
  · split
    · rw [payload_count_eq]
    · simp only []
      rw [payload_fst_created, intoReturn_created_count, payload_count_eq]
      simp
  · simp

theorem traverseGo_count_le (hf : K → Nat) (keyOf : P → K) :
    ∀ (fuel hash : Nat) (st : TState P K) (mode : TraverseMode) (t : Node P)
      (shift : Nat) (r : Node P × Option P × Nat),
      traverseGo hf keyOf fuel hash st mode t shift = some r →
      r.2.2 ≤ stCost st := by
  intro fuel
  induction fuel with
  | zero =>
      intro hash st mode t shift r h
      simp [traverseGo] at h
  | succ n ih =>
      intro hash st mode t shift r h
      cases t with
      | null =>
          rw [traverseGo_null] at h
          cases h
          simp only []
          rw [payload_fst_created, intoReturn_created_count, payload_count_eq]
          simp
      | data l =>
          match l with
          | [] =>
              rw [traverseGo_data_nil] at h
              cases h
              exact bucketStep_count_le keyOf st mode []
          | [q] =>
              rw [traverseGo_data_one] at h
              by_cases hc : (¬ keyOf q = st.keyGet keyOf) ∧ shift < HASH_BITS
              · rw [if_pos hc] at h
                exact ih hash st mode _ shift r h
              · rw [if_neg hc] at h
                cases h
                exact bucketStep_count_le keyOf st mode [q]
          | q1 :: q2 :: rest =>
              rw [traverseGo_data_big] at h
              cases h
              exact bucketStep_count_le keyOf st mode (q1 :: q2 :: rest)
      | inner cells =>
          rw [traverseGo_inner] at h
          cases hrec : traverseGo hf keyOf n hash st mode
              (cells ((hash >>> shift) &&& LEVEL_MASK)) (shift + LEVEL_BITS) with
          | none => rw [hrec] at h; cases h
          | some r2 =>
              rw [hrec] at h
              cases h
              exact ih hash st mode _ _ r2 hrec

theorem payloadIter_created (p : P) :
    ∀ n : Nat, TState.payloadIter (K := K) (.created p) n = (.created p, 0) := by
  intro n
  induction n with
  | zero => rfl
  | succ m ih => simp [TState.payloadIter, TState.payload, ih]

end Helpers

/--
Claim C2: for every payload p and payload p2 with the same key, insert(p)
on an empty trie followed by insert(p2) makes the second insert return
Some(p) (the displaced payload), and a subsequent get(p.key) returns
Some(p2). -/
theorem C2_insert_insert_same_key {P K : Type} [DecidableEq K]
    (hf : K → Nat) (keyOf : P → K) (p p2 : P) (h : keyOf p = keyOf p2) :
    insertOp hf keyOf .null p = some (.data [p], none) ∧
    insertOp hf keyOf (.data [p]) p2 = some (.data [p2], some p) ∧
    getOp (P := P) keyOf (keyOf p) (hf (keyOf p)) (.data [p2]) = some p2 := by
  refine ⟨rfl, ?_, ?_⟩
  · simp only [insertOp, show (99 : Nat) = 98 + 1 from rfl,
      traverseGo_data_one]
    rw [if_neg]
    · simp [bucketStep, TState.keyGet, TState.payload, h, List.find?]
    · simp [TState.keyGet, h]
  · simp [getOp, List.find?, h]

/-- Witness for C2 at a concrete input. -/
theorem C2_insert_insert_same_key_witness :
    insertOp constHash Prod.fst Node.null ((0, 1) : Nat × Nat) =
      some (.data [(0, 1)], none) ∧
    insertOp constHash Prod.fst (.data [((0, 1) : Nat × Nat)]) (0, 2) =
      some (.data [(0, 2)], some (0, 1)) ∧
    getOp Prod.fst 0 (constHash 0) (.data [((0, 2) : Nat × Nat)]) =
      some (0, 2) :=
  C2_insert_insert_same_key constHash Prod.fst (0, 1) (0, 2) rfl

/--
Claim C3: for every payload p with key k, after insert(p) on an empty trie
the call remove(k) returns Some(p) and restores the root to null; an
immediately following second remove(k) returns None; get(k) on the emptied
trie returns None and is_empty() is true. -/
theorem C3_insert_remove_drain {P K : Type} [DecidableEq K]
    (hf : K → Nat) (keyOf : P → K) (p : P) :
    insertOp hf keyOf .null p = some (.data [p], none) ∧
    removeOp hf keyOf (.data [p]) (keyOf p) = (.null, some p) ∧
    removeOp hf keyOf .null (keyOf p) = (.null, none) ∧
    getOp (P := P) keyOf (keyOf p) (hf (keyOf p)) .null = none ∧
    isEmptyOp (Node.null : Node P) = true := by
  refine ⟨rfl, ?_, rfl, rfl, rfl⟩
  simp [removeOp, removeGo, removeScan, Option.orElse]

/--
Claim C4: get_or_insert_with is idempotent: starting from an empty trie,
get_or_insert_with(k, c1) creates and returns c1 k (one constructor
invocation); a second call get_or_insert_with(k, c2), for any constructor
c2, returns the same payload, leaves the tree unchanged, and performs zero
constructor invocations, because a value for k already exists. -/
theorem C4_get_or_insert_idempotent {P K : Type} [DecidableEq K]
    (hf : K → Nat) (keyOf : P → K) (k : K) (c1 c2 : K → P)
    (hk : keyOf (c1 k) = k) :
    getOrInsertWithOp hf keyOf .null k c1 = some (.data [c1 k], c1 k, 1) ∧
    getOrInsertWithOp hf keyOf (.data [c1 k]) k c2 =
      some (.data [c1 k], c1 k, 0) := by
  constructor
  · rfl
  · simp only [getOrInsertWithOp, show (99 : Nat) = 98 + 1 from rfl,
      traverseGo_data_one]
    rw [if_neg]
    · simp [bucketStep, TState.keyGet, List.find?, hk]
    · simp [TState.keyGet, hk]

/-- Witness for C4 at a concrete input. -/
theorem C4_get_or_insert_idempotent_witness :
    getOrInsertWithOp constHash Prod.fst Node.null 5
        (fun k => ((k, 100) : Nat × Nat)) =
      some (.data [(5, 100)], (5, 100), 1) ∧
    getOrInsertWithOp constHash Prod.fst (.data [((5, 100) : Nat × Nat)]) 5
        (fun k => (k, 999)) =
      some (.data [(5, 100)], (5, 100), 0) :=
  C4_get_or_insert_idempotent constHash Prod.fst 5 _ _ rfl

/--
Claim C10: within a single call to get_or_insert_with(k, ctor) the
constructor is invoked at most once, no matter how many times the traversal
asks for the payload (retries after CAS failures and restarts after pruning
each ask again): the state transitions from Future to Created on the first
payload construction (one invocation), every later use clones the created
payload (zero invocations), any number n ≥ 1 of payload requests totals
exactly one invocation, and a completed traversal started from a Future
state reports at most one invocation. -/
theorem C10_constructor_once {P K : Type} [DecidableEq K]
    (hf : K → Nat) (keyOf : P → K) (k : K) (ctor : K → P) :
    TState.payload (.future k ctor) = (.created (ctor k), ctor k, 1) ∧
    (∀ p : P, TState.payload (K := K) (.created p) = (.created p, p, 0)) ∧
    (∀ n : Nat, 1 ≤ n →
      TState.payloadIter (.future k ctor) n = (.created (ctor k), 1)) ∧
    (∀ (fuel hash : Nat) (mode : TraverseMode) (t : Node P) (shift : Nat)
        (r : Node P × Option P × Nat),
      traverseGo hf keyOf fuel hash (.future k ctor) mode t shift = some r →
      r.2.2 ≤ 1) := by
  refine ⟨rfl, fun p => rfl, ?_, ?_⟩
  · intro n hn
    match n, hn with
    | m + 1, _ =>
        simp [TState.payloadIter, TState.payload, payloadIter_created]
  · intro fuel hash mode t shift r h
    exact traverseGo_count_le hf keyOf fuel hash _ mode t shift r h

/-- Witness for C10 at a concrete input. -/
theorem C10_constructor_once_witness :
    TState.payload (.future 0 fun k => ((k, 7) : Nat × Nat)) =
      (.created (0, 7), (0, 7), 1) ∧
    TState.payloadIter (.future 0 fun k => ((k, 7) : Nat × Nat)) 3 =
      (.created (0, 7), 1) ∧
    traverseGo constHash Prod.fst 9 0 (.future 0 fun k => ((k, 7) : Nat × Nat))
        .IfMissing .null 0 = some (.data [(0, 7)], some (0, 7), 1) ∧
    (1 : Nat) ≤ 1 := by
  have h := C10_constructor_once constHash Prod.fst 0
    (fun k => ((k, 7) : Nat × Nat))
  exact ⟨h.1, h.2.2.1 3 (by decide),
    rfl, h.2.2.2 9 0 .IfMissing .null 0 _ rfl⟩

section PruneScanLemmas

variable {P : Type}

theorem nonNullChildren_cons (c : PCell P) (rest : List (PCell P)) :
    nonNullChildren (c :: rest) =
      if c.target.isNull = true then nonNullChildren rest
      else c.target :: nonNullChildren rest := by
  simp only [nonNullChildren, List.map_cons, List.filter_cons]
  cases hc : c.target.isNull <;> simp [hc]

theorem pruneScanGo_acc :
    ∀ (cells : List (PCell P)) (ac : Bool) (cnt : Nat) (ll : Option (Node P))
      (acc : List (Node P)),
      (pruneScanGo ac cnt ll acc cells).2.2.2 = acc ++ cells.map PCell.target := by
  intro cells
  induction cells with
  | nil => intro ac cnt ll acc; simp [pruneScanGo]
  | cons c rest ih =>
      intro ac cnt ll acc
      by_cases h1 : c.target.isNull = true
      · simp [pruneScanGo, h1, ih]
      · by_cases h2 : c.target.isData = true
        · simp [pruneScanGo, h1, h2, ih]
        · simp [pruneScanGo, h1, h2, ih]

theorem pruneScanGo_count :
    ∀ (cells : List (PCell P)) (ac : Bool) (cnt : Nat) (ll : Option (Node P))
      (acc : List (Node P)),
      (pruneScanGo ac cnt ll acc cells).2.1 =
        cnt + (nonNullChildren cells).length := by
  intro cells
  induction cells with
  | nil => intro ac cnt ll acc; simp [pruneScanGo, nonNullChildren]
  | cons c rest ih =>
      intro ac cnt ll acc
      rw [nonNullChildren_cons]
      by_cases h1 : c.target.isNull = true
      · simp [pruneScanGo, h1, ih]
      · by_cases h2 : c.target.isData = true
        · simp [pruneScanGo, h1, h2, ih]
          omega
        · simp [pruneScanGo, h1, h2, ih]
          omega

theorem pruneScanGo_allow :
    ∀ (cells : List (PCell P)) (ac : Bool) (cnt : Nat) (ll : Option (Node P))
      (acc : List (Node P)),
      (pruneScanGo ac cnt ll acc cells).1 =
        (ac && (nonNullChildren cells).all Node.isData) := by
  intro cells
  induction cells with
  | nil => intro ac cnt ll acc; simp [pruneScanGo, nonNullChildren]
  | cons c rest ih =>
      intro ac cnt ll acc
      rw [nonNullChildren_cons]
      by_cases h1 : c.target.isNull = true
      · simp [pruneScanGo, h1, ih]
      · by_cases h2 : c.target.isData = true
        · simp [pruneScanGo, h1, h2, ih]
        · simp [pruneScanGo, h1, h2, ih]

theorem pruneScanGo_ll_empty :
    ∀ (cells : List (PCell P)), nonNullChildren cells = [] →
      ∀ (ac : Bool) (cnt : Nat) (ll : Option (Node P)) (acc : List (Node P)),
        (pruneScanGo ac cnt ll acc cells).2.2.1 = ll := by
  intro cells
  induction cells with
  | nil => intro hnn ac cnt ll acc; rfl
  | cons c rest ih =>
      intro hnn ac cnt ll acc
      rw [nonNullChildren_cons] at hnn
      by_cases h1 : c.target.isNull = true
      · rw [if_pos h1] at hnn
        simp [pruneScanGo, h1, ih hnn]
      · rw [if_neg h1] at hnn
        cases hnn

theorem pruneScanGo_ll_single :
    ∀ (cells : List (PCell P)) (L : Node P), nonNullChildren cells = [L] →
      L.isData = true →
      ∀ (ac : Bool) (cnt : Nat) (ll : Option (Node P)) (acc : List (Node P)),
        (pruneScanGo ac cnt ll acc cells).2.2.1 = some L := by
  intro cells
  induction cells with
  | nil => intro L hnn; cases hnn
  | cons c rest ih =>
      intro L hnn hd ac cnt ll acc
      rw [nonNullChildren_cons] at hnn
      by_cases h1 : c.target.isNull = true
      · rw [if_pos h1] at hnn
        simp [pruneScanGo, h1, ih L hnn hd]
      · rw [if_neg h1] at hnn
        injection hnn with hL hrest
        subst hL
        simp [pruneScanGo, h1, hd, pruneScanGo_ll_empty rest hrest]

theorem pruneScanGo_ll_data :
    ∀ (cells : List (PCell P)) (ac : Bool) (cnt : Nat) (ll : Option (Node P))
      (acc : List (Node P)),
      (∀ x : Node P, ll = some x → x.isData = true) →
      ∀ x : Node P, (pruneScanGo ac cnt ll acc cells).2.2.1 = some x →
        x.isData = true := by
  intro cells
  induction cells with
  | nil => intro ac cnt ll acc hll x hx; exact hll x hx
  | cons c rest ih =>
      intro ac cnt ll acc hll x hx
      by_cases h1 : c.target.isNull = true
      · exact ih _ _ _ _ hll x (by simpa [pruneScanGo, h1] using hx)
      · by_cases h2 : c.target.isData = true
        · refine ih _ _ _ _ ?_ x (by simpa [pruneScanGo, h1, h2] using hx)
          intro y hy
          cases hy
          exact h2
        · exact ih _ _ _ _ hll x (by simpa [pruneScanGo, h1, h2] using hx)

theorem pruneReplacement_eq (cells : List (PCell P)) :
    pruneReplacement cells =
      match (pruneScan cells).1, (pruneScan cells).2.1,
          (pruneScan cells).2.2.1 with
      | true, 1, some leaf => (leaf, .Singleton, none)
      | _, 0, none => (.null, .Null, none)
      | _, _, _ =>
          (.inner fun i => (pruneScan cells).2.2.2.getD i .null, .Copy,
            some (.inner fun i => (pruneScan cells).2.2.2.getD i .null)) := rfl

theorem pruneReplacement_shape (cells : List (PCell P)) :
    ((pruneReplacement cells).2.1 = PruneResult.Singleton ∧
      (pruneReplacement cells).2.2 = none ∧
      (pruneScan cells).2.2.1 = some (pruneReplacement cells).1 ∧
      (pruneScan cells).1 = true ∧ (pruneScan cells).2.1 = 1) ∨
    ((pruneReplacement cells).2.1 = PruneResult.Null ∧
      (pruneReplacement cells).2.2 = none ∧
      (pruneReplacement cells).1 = Node.null ∧
      (pruneScan cells).2.1 = 0) ∨
    ((pruneReplacement cells).2.1 = PruneResult.Copy ∧
      (pruneReplacement cells).2.2 = some (pruneReplacement cells).1 ∧
      (pruneReplacement cells).1 =
        Node.inner fun i => (pruneScan cells).2.2.2.getD i Node.null) := by
  rw [pruneReplacement_eq]
  split
  · left; simp_all
  · right; left; simp_all
  · right; right; simp

end PruneScanLemmas

/--
Claim C5: when the traversal meets a single-payload bucket with a foreign
key and hash bits remain (shift < 64), the engine proceeds with exactly a
fresh inner node whose only non-null cell, at index
(other_hash >> shift) & LEVEL_MASK, holds the existing bucket, and CASes it
into the current cell through replace with delete_previous = false: whether
that CAS succeeds or fails, nothing is handed to deferred destruction (in
particular not the old bucket); a failed CAS frees only the fresh inner
node and leaves the cell holding the old bucket. -/
theorem C5_split_no_retire {P K : Type} [DecidableEq K]
    (hf : K → Nat) (keyOf : P → K) (q : P) (st : TState P K)
    (mode : TraverseMode) (fuel hash shift : Nat) (casOk : Bool)
    (hk : ¬ keyOf q = st.keyGet keyOf) (hs : shift < HASH_BITS) :
    traverseGo hf keyOf (fuel + 1) hash st mode (.data [q]) shift =
      traverseGo hf keyOf fuel hash st mode (splitNode hf keyOf q shift)
        shift ∧
    (∃ cells : Nat → Node P, splitNode hf keyOf q shift = .inner cells ∧
      cells ((hf (keyOf q) >>> shift) &&& LEVEL_MASK) = .data [q] ∧
      ∀ j : Nat, ¬ j = (hf (keyOf q) >>> shift) &&& LEVEL_MASK →
        cells j = .null) ∧
    replaceModel (.data [q]) (splitNode hf keyOf q shift) false casOk =
      (if casOk then splitNode hf keyOf q shift else .data [q], [],
        if casOk then [] else [splitNode hf keyOf q shift]) := by
  refine ⟨?_, ⟨_, rfl, ?_, ?_⟩, ?_⟩
  · rw [traverseGo_data_one, if_pos ⟨hk, hs⟩]
  · simp [cellsSingle]
  · intro j hj
    simp [cellsSingle, hj]
  · cases casOk <;> rfl

/-- Witness for C5 at a concrete input (failed CAS). -/
theorem C5_split_no_retire_witness :
    traverseGo constHash Prod.fst (7 + 1) 0
        (.created ((1, 1) : Nat × Nat)) .Overwrite (.data [(0, 0)]) 0 =
      traverseGo constHash Prod.fst 7 0 (.created ((1, 1) : Nat × Nat))
        .Overwrite (splitNode constHash Prod.fst (0, 0) 0) 0 ∧
    (∃ cells : Nat → Node (Nat × Nat),
      splitNode constHash Prod.fst ((0, 0) : Nat × Nat) 0 = .inner cells ∧
      cells ((constHash 0 >>> 0) &&& LEVEL_MASK) = .data [(0, 0)] ∧
      ∀ j : Nat, ¬ j = (constHash 0 >>> 0) &&& LEVEL_MASK →
        cells j = .null) ∧
    replaceModel (.data [((0, 0) : Nat × Nat)])
        (splitNode constHash Prod.fst (0, 0) 0) false false =
      (.data [(0, 0)], [], [splitNode constHash Prod.fst (0, 0) 0]) :=
  C5_split_no_retire constHash Prod.fst (0, 0) (.created (1, 1)) .Overwrite
    7 0 0 false (by decide) (by decide)

/--
Claim C6: prune decides its replacement from the scanned cells exactly as
specified: with no non-null child the replacement is null (Null); with
exactly one non-null child that is a leaf bucket L the replacement is L
itself (Singleton); otherwise (two or more non-null children, or a
non-leaf child) the replacement is a fresh inner node whose cells are the
captured values with CONDEMNED cleared (Copy).  A Singleton replacement is
always a leaf bucket: an edge is never contracted onto an inner node. -/
theorem C6_prune_decision {P : Type} (cells : List (PCell P)) :
    (nonNullChildren cells = [] →
      (pruneReplacement cells).2.1 = PruneResult.Null ∧
      (pruneReplacement cells).1 = Node.null) ∧
    (∀ L : Node P, nonNullChildren cells = [L] → L.isData = true →
      (pruneReplacement cells).2.1 = PruneResult.Singleton ∧
      (pruneReplacement cells).1 = L) ∧
    ((pruneReplacement cells).2.1 = PruneResult.Singleton →
      (pruneReplacement cells).1.isData = true) ∧
    ((2 ≤ (nonNullChildren cells).length ∨
        (∃ c ∈ nonNullChildren cells, c.isData = false)) →
      (pruneReplacement cells).2.1 = PruneResult.Copy ∧
      (pruneReplacement cells).1 =
        Node.inner fun i => (cells.map PCell.target).getD i Node.null) := by
  have hAc : (pruneScan cells).1 = (nonNullChildren cells).all Node.isData := by
    rw [pruneScan, pruneScanGo_allow]
    simp
  have hCnt : (pruneScan cells).2.1 = (nonNullChildren cells).length := by
    rw [pruneScan, pruneScanGo_count]
    simp
  have hAcc : (pruneScan cells).2.2.2 = cells.map PCell.target := by
    rw [pruneScan, pruneScanGo_acc]
    simp
  refine ⟨?_, ?_, ?_, ?_⟩
  · intro hnn
    have h1 : (pruneScan cells).1 = true := by rw [hAc, hnn]; rfl
    have h2 : (pruneScan cells).2.1 = 0 := by rw [hCnt, hnn]; rfl
    have h3 : (pruneScan cells).2.2.1 = none :=
      pruneScanGo_ll_empty cells hnn true 0 none []
    rw [pruneReplacement_eq, h1, h2, h3]
    exact ⟨rfl, rfl⟩
  · intro L hnn hd
    have h1 : (pruneScan cells).1 = true := by rw [hAc, hnn]; simp [hd]
    have h2 : (pruneScan cells).2.1 = 1 := by rw [hCnt, hnn]; rfl
    have h3 : (pruneScan cells).2.2.1 = some L :=
      pruneScanGo_ll_single cells L hnn hd true 0 none []
    rw [pruneReplacement_eq, h1, h2, h3]
    exact ⟨rfl, rfl⟩
  · intro hS
    rcases pruneReplacement_shape cells with h | h | h
    · exact pruneScanGo_ll_data cells true 0 none []
        (by intro y hy; cases hy) _ h.2.2.1
    · rw [h.1] at hS; cases hS
    · rw [h.1] at hS; cases hS
  · intro hbig
    have hbranch : ¬ ((pruneScan cells).1 = true ∧
        (pruneScan cells).2.1 = 1) ∧ ¬ (pruneScan cells).2.1 = 0 := by
      rcases hbig with hlen | ⟨c, hc, hcd⟩
      · constructor
        · rintro ⟨-, h2⟩
          rw [hCnt] at h2
          omega
        · intro h2
          rw [hCnt] at h2
          omega
      · constructor
        · rintro ⟨h1, -⟩
          rw [hAc] at h1
          rcases List.all_eq_true.mp h1 c hc with hcontra
          rw [hcd] at hcontra
          cases hcontra
        · intro h2
          rw [hCnt] at h2
          have := List.ne_nil_of_mem hc
          simp [List.length_eq_zero] at h2
          exact this h2
    rcases pruneReplacement_shape cells with h | h | h
    · exact absurd ⟨h.2.2.2.1, h.2.2.2.2⟩ hbranch.1
    · exact absurd h.2.2.2 hbranch.2
    · refine ⟨h.1, ?_⟩
      rw [h.2.2, hAcc]

/-- Witness for C6 at concrete inputs. -/
theorem C6_prune_decision_witness :
    ((pruneReplacement ([⟨false, .null⟩, ⟨true, .null⟩] :
        List (PCell Nat))).2.1 = PruneResult.Null ∧
      (pruneReplacement ([⟨false, .null⟩, ⟨true, .null⟩] :
        List (PCell Nat))).1 = Node.null) ∧
    ((pruneReplacement ([⟨false, .data [7]⟩, ⟨false, .null⟩] :
        List (PCell Nat))).2.1 = PruneResult.Singleton ∧
      (pruneReplacement ([⟨false, .data [7]⟩, ⟨false, .null⟩] :
        List (PCell Nat))).1 = Node.data [7]) ∧
    ((pruneReplacement ([⟨false, .data [1]⟩, ⟨false, .data [2]⟩] :
        List (PCell Nat))).2.1 = PruneResult.Copy) := by
  refine ⟨(C6_prune_decision _).1 rfl, ?_, ?_⟩
  · exact (C6_prune_decision _).2.1 (Node.data [7]) rfl rfl
  · exact ((C6_prune_decision _).2.2.2 (by left; decide)).1

/--
Claim C7: prune is atomic on failure: when the final CAS of the parent
cell fails, prune returns CasFail, frees the freshly built copy if one was
produced (the cleanup obligation is exactly the copy in the Copy case and
nothing otherwise), does not defer-destroy anything, and leaves the parent
cell untouched; only on CAS success is the old child handed to deferred
destruction. -/
theorem C7_prune_atomic_on_failure {P : Type} (child : Node P)
    (cells : List (PCell P)) :
    pruneModel child cells false =
      { res := PruneResult.CasFail, parentNew := none,
        freed := (pruneReplacement cells).2.2.toList, deferred := [] } ∧
    ((pruneReplacement cells).2.1 = PruneResult.Copy →
      (pruneReplacement cells).2.2 = some (pruneReplacement cells).1) ∧
    (¬ (pruneReplacement cells).2.1 = PruneResult.Copy →
      (pruneReplacement cells).2.2 = none) ∧
    pruneModel child cells true =
      { res := (pruneReplacement cells).2.1,
        parentNew := some (pruneReplacement cells).1, freed := [],
        deferred := [child] } := by
  refine ⟨rfl, ?_, ?_, rfl⟩
  · intro hc
    rcases pruneReplacement_shape cells with h | h | h
    · rw [h.1] at hc; cases hc
    · rw [h.1] at hc; cases hc
    · exact h.2.1
  · intro hc
    rcases pruneReplacement_shape cells with h | h | h
    · exact h.2.1
    · exact h.2.1
    · exact absurd h.1 hc

/-- Witness for C7 at a concrete input. -/
theorem C7_prune_atomic_on_failure_witness :
    pruneModel (Node.inner fun _ => Node.null)
        ([⟨false, .data [1]⟩, ⟨false, .data [2]⟩] : List (PCell Nat))
        false =
      { res := PruneResult.CasFail, parentNew := none,
        freed := (pruneReplacement
          ([⟨false, .data [1]⟩, ⟨false, .data [2]⟩] :
            List (PCell Nat))).2.2.toList, deferred := [] } ∧
    ((pruneReplacement ([⟨false, .data [1]⟩, ⟨false, .data [2]⟩] :
        List (PCell Nat))).2.1 = PruneResult.Copy →
      (pruneReplacement ([⟨false, .data [1]⟩, ⟨false, .data [2]⟩] :
          List (PCell Nat))).2.2 =
        some (pruneReplacement ([⟨false, .data [1]⟩, ⟨false, .data [2]⟩] :
          List (PCell Nat))).1) := by
  have h := C7_prune_atomic_on_failure (Node.inner fun _ => Node.null)
    ([⟨false, .data [1]⟩, ⟨false, .data [2]⟩] : List (PCell Nat))
  exact ⟨h.1, h.2.1⟩

/--
Claim C8: after a successful removal the walk over the recorded levels,
deepest first, stops without pruning at a level with more than one
non-null cell; at a level with at most one non-null cell it runs prune,
stops if the result is Copy, and continues upward on CasFail, Null or
Singleton.  Equivalently, the performed prunes are exactly those of the
longest prefix of levels with at most one non-null cell, truncated just
after the first Copy. -/
theorem C8_remove_walk (lv : LevelObs) (rest ls : List LevelObs) :
    pruneWalk ls = specPruneWalk ls ∧
    (lv.nonNull > 1 → pruneWalk (lv :: rest) = []) ∧
    (lv.nonNull ≤ 1 → lv.pres = PruneResult.Copy →
      pruneWalk (lv :: rest) = [PruneResult.Copy]) ∧
    (lv.nonNull ≤ 1 → ¬ lv.pres = PruneResult.Copy →
      pruneWalk (lv :: rest) = lv.pres :: pruneWalk rest) := by
  refine ⟨?_, ?_, ?_, ?_⟩
  · induction ls with
    | nil => rfl
    | cons v vs ih =>
        by_cases h1 : v.nonNull > 1
        · simp [pruneWalk, specPruneWalk, h1, List.takeWhile_cons,
            Nat.not_le.mpr h1, takeThroughCopy]
        · have h1' : v.nonNull ≤ 1 := Nat.not_lt.mp h1
          by_cases h2 : v.pres = PruneResult.Copy
          · simp [pruneWalk, specPruneWalk, h1, h1', h2,
              List.takeWhile_cons, takeThroughCopy]
          · simp only [pruneWalk, if_neg h1, if_neg h2]
            rw [ih]
            simp [specPruneWalk, List.takeWhile_cons, h1', takeThroughCopy,
              h2]
  · intro h
    simp [pruneWalk, h]
  · intro h1 h2
    simp [pruneWalk, Nat.not_lt.mpr h1, h2]
  · intro h1 h2
    simp [pruneWalk, Nat.not_lt.mpr h1, h2]

/-- Witness for C8 at a concrete input. -/
theorem C8_remove_walk_witness :
    pruneWalk [⟨0, PruneResult.Null⟩, ⟨1, PruneResult.Singleton⟩] =
      specPruneWalk [⟨0, PruneResult.Null⟩, ⟨1, PruneResult.Singleton⟩] ∧
    pruneWalk [(⟨2, PruneResult.Null⟩ : LevelObs)] = [] ∧
    pruneWalk [(⟨1, PruneResult.Copy⟩ : LevelObs),
        ⟨0, PruneResult.Null⟩] = [PruneResult.Copy] ∧
    pruneWalk [(⟨0, PruneResult.CasFail⟩ : LevelObs)] =
      [PruneResult.CasFail] := by
  have h1 := C8_remove_walk ⟨2, PruneResult.Null⟩ []
    [⟨0, PruneResult.Null⟩, ⟨1, PruneResult.Singleton⟩]
  have h2 := C8_remove_walk ⟨1, PruneResult.Copy⟩ [⟨0, PruneResult.Null⟩] []
  have h3 := C8_remove_walk ⟨0, PruneResult.CasFail⟩ [] []
  exact ⟨h1.1, h1.2.1 (by decide), h2.2.2.1 (by decide) rfl,
    h3.2.2.2 (by decide) (by decide)⟩

/--
Claim C9: the impossible conditions are fatal, never silently ignored: a
pointer tag with unrecognised bits fails to decode in nf; a DATA-tagged or
null child passed to prune aborts at its entry assertions; and a CONDEMNED
root (no recorded parent in insert's traversal, an empty level stack in
remove) aborts instead of returning a value. -/
theorem C9_fatal_conditions {P : Type} :
    (∀ tag : Nat, 4 ≤ tag → nfModel tag = none) ∧
    (∀ (l : List P) (cnd : Bool) (cells : List (PCell P)) (casOk : Bool),
      pruneChecked ⟨cnd, .data l⟩ cells casOk = none) ∧
    (∀ (cnd : Bool) (cells : List (PCell P)) (casOk : Bool),
      pruneChecked ⟨cnd, .null⟩ cells casOk = none) ∧
    (∀ casOk : Bool, condemnedRestartInsert (P := P) none casOk = none) ∧
    (∀ casOk : Bool, condemnedRestartRemove (P := P) [] casOk = none) := by
  refine ⟨?_, fun l cnd cells casOk => rfl, fun cnd cells casOk => ?_,
    fun casOk => rfl, fun casOk => rfl⟩
  · intro tag htag
    rw [nfModel, if_neg (by omega)]
  · rfl

/-- Witness for C9 at concrete inputs. -/
theorem C9_fatal_conditions_witness :
    nfModel 5 = none ∧
    pruneChecked ⟨false, .data [(3 : Nat)]⟩ [] true = none ∧
    pruneChecked (P := Nat) ⟨false, .null⟩ [] false = none ∧
    condemnedRestartInsert (P := Nat) none true = none ∧
    condemnedRestartRemove (P := Nat) [] true = none := by
  have h := C9_fatal_conditions (P := Nat)
  exact ⟨h.1 5 (by decide), h.2.1 [3] false [] true, h.2.2.1 false [] false,
    h.2.2.2.1 true, h.2.2.2.2 true⟩

section ConstHashLemmas

variable {P K : Type} [DecidableEq K]

theorem cellsSingle_same {Q : Type} (i : Nat) (v : Node Q) :
    cellsSingle i v i = v := by
  simp [cellsSingle]

theorem updateCell_single {Q : Type} (x y : Node Q) :
    updateCell (cellsSingle 0 x) 0 y = cellsSingle 0 y := by
  funext j
  by_cases h : j = 0 <;> simp [updateCell, cellsSingle, h]

theorem isNull_null : (Node.null : Node P).isNull = true := rfl

theorem isNull_data (l : List P) : (Node.data l : Node P).isNull = false := rfl

theorem isNull_inner (c : Nat → Node P) :
    (Node.inner c : Node P).isNull = false := rfl

theorem pcells_single_children (x : Node P) :
    nonNullChildren (pcellsOf (cellsSingle 0 x)) =
      if x.isNull = true then [] else [x] := by
  have hr : List.range LEVEL_CELLS =
      [0, 1, 2, 3, 4, 5, 6, 7, 8, 9, 10, 11, 12, 13, 14, 15] := rfl
  cases hx : x.isNull <;>
    simp [pcellsOf, nonNullChildren, cellsSingle, hr, hx, isNull_null,
      List.filter_cons]

theorem countNonNull_single (x : Node P) :
    countNonNull (cellsSingle 0 x) = if x.isNull = true then 0 else 1 := by
  have hr : List.range LEVEL_CELLS =
      [0, 1, 2, 3, 4, 5, 6, 7, 8, 9, 10, 11, 12, 13, 14, 15] := rfl
  cases hx : x.isNull <;>
    simp [countNonNull, cellsSingle, hr, hx, isNull_null, List.filter_cons]

theorem pruneReplacement_single_null :
    pruneReplacement (pcellsOf (cellsSingle 0 (Node.null : Node P))) =
      (Node.null, PruneResult.Null, none) := rfl

theorem pruneReplacement_single_data (l : List P) :
    pruneReplacement (pcellsOf (cellsSingle 0 (Node.data l))) =
      (Node.data l, PruneResult.Singleton, none) := rfl

theorem getOp_chain (keyOf : P → K) (k : K) (l : List P) :
    ∀ n : Nat, getOp keyOf k 0 (chainK n (.data l)) =
      l.find? fun q => decide (keyOf q = k) := by
  intro n
  induction n with
  | zero => rfl
  | succ m ih =>
      show getOp keyOf k 0 (.inner (cellsSingle 0 (chainK m (.data l)))) = _
      rw [getOp]
      simpa [cellsSingle] using ih

end ConstHashLemmas

section ChainLemmas

variable {P K : Type} [DecidableEq K]

theorem splitNode_const (keyOf : P → K) (q : P) (shift : Nat) :
    splitNode constHash keyOf q shift = .inner (cellsSingle 0 (.data [q])) := by
  simp [splitNode, constHash, Nat.zero_shiftRight]

theorem traverseGo_chain (hf : K → Nat) (keyOf : P → K) :
    ∀ n : Nat, n ≤ 16 →
      ∀ (fuel : Nat) (l : List P) (st : TState P K) (mode : TraverseMode),
        traverseGo hf keyOf (fuel + (n + 1)) 0 st mode (chainK n (.data l))
            (64 - 4 * n) =
          some (chainK n (.data (bucketStep keyOf st mode l).1),
            (bucketStep keyOf st mode l).2.1,
            (bucketStep keyOf st mode l).2.2) := by
  intro n
  induction n with
  | zero =>
      intro hn fuel l st mode
      show traverseGo hf keyOf (fuel + 1) 0 st mode (.data l) 64 = _
      rcases l with _ | ⟨q, _ | ⟨q2, rest⟩⟩
      · rw [traverseGo_data_nil]
        rfl
      · rw [traverseGo_data_one, if_neg]
        · rfl
        · rintro ⟨-, hlt⟩
          simp [HASH_BITS] at hlt
      · rw [traverseGo_data_big]
        rfl
  | succ m ih =>
      intro hn fuel l st mode
      have hm : m ≤ 16 := by omega
      show traverseGo hf keyOf (fuel + (m + 1) + 1) 0 st mode
        (.inner (cellsSingle 0 (chainK m (.data l)))) (64 - 4 * (m + 1)) = _
      rw [traverseGo_inner]
      have hbits : (0 >>> (64 - 4 * (m + 1))) &&& LEVEL_MASK = 0 := by
        simp [Nat.zero_shiftRight]
      have hshift : 64 - 4 * (m + 1) + LEVEL_BITS = 64 - 4 * m := by
        simp only [LEVEL_BITS]
        omega
      rw [hbits, cellsSingle_same, hshift, ih hm fuel l st mode]
      simp only [updateCell_single]
      rfl

theorem traverseGo_cascade (keyOf : P → K) :
    ∀ n : Nat, n ≤ 16 →
      ∀ (fuel : Nat) (q : P) (st : TState P K) (mode : TraverseMode),
        (¬ keyOf q = st.keyGet keyOf) →
        traverseGo constHash keyOf (fuel + (2 * n + 1)) 0 st mode (.data [q])
            (64 - 4 * n) =
          some (chainK n (.data (bucketStep keyOf st mode [q]).1),
            (bucketStep keyOf st mode [q]).2.1,
            (bucketStep keyOf st mode [q]).2.2) := by
  intro n
  induction n with
  | zero =>
      intro hn fuel q st mode hk
      show traverseGo constHash keyOf (fuel + 1) 0 st mode (.data [q]) 64 = _
      rw [traverseGo_data_one, if_neg]
      · rfl
      · rintro ⟨-, hlt⟩
        simp [HASH_BITS] at hlt
  | succ m ih =>
      intro hn fuel q st mode hk
      have hm : m ≤ 16 := by omega
      show traverseGo constHash keyOf (fuel + (2 * m + 1) + 1 + 1) 0 st mode
        (.data [q]) (64 - 4 * (m + 1)) = _
      rw [traverseGo_data_one, if_pos]
      · rw [splitNode_const, traverseGo_inner]
        have hbits : (0 >>> (64 - 4 * (m + 1))) &&& LEVEL_MASK = 0 := by
          simp [Nat.zero_shiftRight]
        have hshift : 64 - 4 * (m + 1) + LEVEL_BITS = 64 - 4 * m := by
          simp only [LEVEL_BITS]
          omega
        rw [hbits, cellsSingle_same, hshift, ih hm fuel q st mode hk]
        simp only [updateCell_single]
        rfl
      · refine ⟨hk, ?_⟩
        simp only [HASH_BITS]
        omega

theorem removeGo_chain (keyOf : P → K) (k : K) :
    ∀ (n : Nat) (l : List P) (shift : Nat),
      removeGo keyOf k 0 (chainK n (.data l)) shift =
        (match (removeScan keyOf k l).2 with
         | none => (chainK n (.data l), none, false)
         | some d =>
             (if (removeScan keyOf k l).1.isEmpty then Node.null
              else Node.data (removeScan keyOf k l).1, some d, true)) := by
  intro n
  induction n with
  | zero =>
      intro l shift
      show removeGo keyOf k 0 (.data l) shift = _
      rfl
  | succ m ih =>
      intro l shift
      show removeGo keyOf k 0
        (.inner (cellsSingle 0 (chainK m (.data l)))) shift = _
      rw [removeGo_inner]
      simp only [Nat.zero_shiftRight, Nat.zero_and, cellsSingle_same]
      rw [ih l (shift + LEVEL_BITS)]
      cases hrs : (removeScan keyOf k l).2 with
      | none =>
          simp only [updateCell_single]
          rfl
      | some d =>
          by_cases hemp : (removeScan keyOf k l).1.isEmpty
          · simp [hemp, updateCell_single, countNonNull_single,
              pruneReplacement_single_null, isNull_null]
          · simp [hemp, updateCell_single, countNonNull_single,
              pruneReplacement_single_data, isNull_data]

end ChainLemmas

section StepEquivalences

variable {P K : Type} [DecidableEq K]

theorem bucketStep_insert (keyOf : P → K) (p : P) (l : List P) :
    bucketStep keyOf (.created p) .Overwrite l =
      ((l.filter fun q => decide (¬ keyOf q = keyOf p)) ++ [p],
        l.find? fun q => decide (keyOf q = keyOf p), 0) := by
  simp only [bucketStep, TState.keyGet]
  cases hfind : l.find? fun q => decide (keyOf q = keyOf p) <;>
    simp [hfind, TState.payload, TState.intoReturn]

theorem bucketStep_goiw (keyOf : P → K) (k : K) (c : K → P) (l : List P) :
    bucketStep keyOf (.future k c) .IfMissing l =
      (match l.find? fun q => decide (keyOf q = k) with
       | some o => (l, some o, 0)
       | none => ((l.filter fun q => decide (¬ keyOf q = k)) ++ [c k],
           some (c k), 1)) := by
  simp only [bucketStep, TState.keyGet]
  cases hfind : l.find? fun q => decide (keyOf q = k) <;>
    simp [hfind, TState.payload, TState.intoReturn, TState.intoPayload]

theorem filter_of_find_none (keyOf : P → K) (k : K) (l : List P)
    (h : (l.find? fun q => decide (keyOf q = k)) = none) :
    (l.filter fun q => decide (¬ keyOf q = k)) = l := by
  apply List.filter_eq_self.mpr
  intro a ha
  have := List.find?_eq_none.mp h a ha
  simpa using this

theorem getLast?_cons_eq {α : Type} :
    ∀ (l : List α) (a : α),
      (a :: l).getLast? = l.getLast?.orElse fun _ => some a := by
  intro l
  induction l with
  | nil => intro a; rfl
  | cons b bs ih =>
      intro a
      rw [List.getLast?_cons_cons, ih b]
      cases hbs : bs.getLast? <;> simp [hbs, Option.orElse]

theorem removeScan_eq (keyOf : P → K) (k : K) :
    ∀ l : List P,
      removeScan keyOf k l =
        (l.filter fun q => decide (¬ keyOf q = k),
          (l.filter fun q => decide (keyOf q = k)).getLast?) := by
  intro l
  induction l with
  | nil => rfl
  | cons q rest ih =>
      by_cases hq : keyOf q = k
      · simp only [removeScan, ih, if_pos hq]
        simp [List.filter_cons, hq, getLast?_cons_eq]
      · simp only [removeScan, ih, if_neg hq]
        simp [List.filter_cons, hq]

end StepEquivalences

section ConstSim

variable {P K : Type} [DecidableEq K]

theorem filterOut_of_no_match (keyOf : P → K) (k : K) (l : List P)
    (h : (l.filter fun q => decide (keyOf q = k)) = []) :
    (l.filter fun q => decide (¬ keyOf q = k)) = l := by
  apply List.filter_eq_self.mpr
  intro a ha
  have := List.filter_eq_nil_iff.mp h a ha
  simpa using this

theorem removeGo_data (keyOf : P → K) (k : K) (hash : Nat) (l : List P)
    (shift : Nat) :
    removeGo keyOf k hash (.data l) shift =
      (match (removeScan keyOf k l).2 with
       | none => (.data l, none, false)
       | some d =>
           (if (removeScan keyOf k l).1.isEmpty then Node.null
            else Node.data (removeScan keyOf k l).1, some d, true)) := rfl

theorem traverseGo_root_bucket (keyOf : P → K) (st : TState P K)
    (mode : TraverseMode) (l : List P)
    (hno : ∀ q : P, l = [q] → keyOf q = st.keyGet keyOf) :
    traverseGo constHash keyOf 99 0 st mode (.data l) 0 =
      some (.data (bucketStep keyOf st mode l).1,
        (bucketStep keyOf st mode l).2.1,
        (bucketStep keyOf st mode l).2.2) := by
  rcases l with _ | ⟨q, _ | ⟨q2, rest⟩⟩
  · rw [show (99 : Nat) = 98 + 1 from rfl, traverseGo_data_nil]
  · rw [show (99 : Nat) = 98 + 1 from rfl, traverseGo_data_one, if_neg]
    rintro ⟨hne, -⟩
    exact hne (hno q rfl)
  · rw [show (99 : Nat) = 98 + 1 from rfl, traverseGo_data_big]

theorem traverseGo_root_cascade (keyOf : P → K) (st : TState P K)
    (mode : TraverseMode) (q : P) (hk : ¬ keyOf q = st.keyGet keyOf) :
    traverseGo constHash keyOf 99 0 st mode (.data [q]) 0 =
      some (chainK 16 (.data (bucketStep keyOf st mode [q]).1),
        (bucketStep keyOf st mode [q]).2.1,
        (bucketStep keyOf st mode [q]).2.2) := by
  have hc := traverseGo_cascade keyOf 16 (by omega) 66 q st mode hk
  norm_num at hc
  exact hc

theorem traverseGo_root_chain (keyOf : P → K) (st : TState P K)
    (mode : TraverseMode) (l : List P) :
    traverseGo constHash keyOf 99 0 st mode
        (chainK MAX_LEVELS (.data l)) 0 =
      some (chainK MAX_LEVELS (.data (bucketStep keyOf st mode l).1),
        (bucketStep keyOf st mode l).2.1,
        (bucketStep keyOf st mode l).2.2) := by
  have hc := traverseGo_chain constHash keyOf 16 (by omega) 82 l st mode
  norm_num at hc
  exact hc

end ConstSim

section ConstSimSteps

variable {P K : Type} [DecidableEq K]

theorem constHash_app (k : K) : constHash k = 0 := rfl

theorem constSim_empt (keyOf : P → K) {t : Node P} {l : List P}
    (hInv : ConstInv t l) :
    ∃ (t2 : Node P) (o : Out P) (l2 : List P),
      trieStep constHash keyOf t COp.empt = some (t2, o) ∧
      refStep keyOf l COp.empt = (l2, o) ∧ ConstInv t2 l2 := by
  refine ⟨t, .bool (isEmptyOp t), l, rfl, ?_, hInv⟩
  cases hInv with
  | nil => rfl
  | bucket l hl =>
      rcases l with _ | ⟨a, as⟩
      · exact absurd rfl hl
      · rfl
  | chain l hl =>
      rcases l with _ | ⟨a, as⟩
      · exact absurd rfl hl
      · rfl

theorem constSim_get (keyOf : P → K) {t : Node P} {l : List P}
    (hInv : ConstInv t l) (k : K) :
    ∃ (t2 : Node P) (o : Out P) (l2 : List P),
      trieStep constHash keyOf t (COp.get k) = some (t2, o) ∧
      refStep keyOf l (COp.get k) = (l2, o) ∧ ConstInv t2 l2 := by
  refine ⟨t, .opt (getOp keyOf k (constHash k) t), l, rfl, ?_, hInv⟩
  cases hInv with
  | nil => rfl
  | bucket l hl => rfl
  | chain l hl =>
      have hg : getOp keyOf k (constHash k) (chainK MAX_LEVELS (.data l)) =
          l.find? fun q => decide (keyOf q = k) :=
        getOp_chain keyOf k l MAX_LEVELS
      rw [refStep, hg]
      rfl

theorem constSim_ins (keyOf : P → K) {t : Node P} {l : List P}
    (hInv : ConstInv t l) (p : P) :
    ∃ (t2 : Node P) (o : Out P) (l2 : List P),
      trieStep constHash keyOf t (COp.ins p) = some (t2, o) ∧
      refStep keyOf l (COp.ins p) = (l2, o) ∧ ConstInv t2 l2 := by
  cases hInv with
  | nil =>
      refine ⟨.data [p], .opt none, [p], rfl, ?_, .bucket [p] (by simp)⟩
      simp [refStep, refFind]
  | bucket l hl =>
      by_cases hsp : ∃ q : P, l = [q] ∧ ¬ keyOf q = keyOf p
      · obtain ⟨q, rfl, hk⟩ := hsp
        have hfind : ([q].find? fun q2 => decide (keyOf q2 = keyOf p)) =
            none := by
          simp [List.find?_cons, hk]
        have hc := traverseGo_root_cascade keyOf (.created p) .Overwrite q hk
        rw [bucketStep_insert, hfind] at hc
        refine ⟨chainK MAX_LEVELS (.data
            (([q].filter fun q2 => decide (¬ keyOf q2 = keyOf p)) ++ [p])),
          .opt none,
          ([q].filter fun q2 => decide (¬ keyOf q2 = keyOf p)) ++ [p],
          ?_, ?_, ConstInv.chain _ (by simp)⟩
        · simp only [trieStep, insertOp, constHash_app]
          rw [hc]
          rfl
        · simp [refStep, refFind, hfind]
      · push_neg at hsp
        have hb := traverseGo_root_bucket keyOf (.created p) .Overwrite l hsp
        rw [bucketStep_insert] at hb
        refine ⟨.data ((l.filter fun q => decide (¬ keyOf q = keyOf p)) ++ [p]),
          .opt (l.find? fun q => decide (keyOf q = keyOf p)),
          (l.filter fun q => decide (¬ keyOf q = keyOf p)) ++ [p],
          ?_, ?_, ConstInv.bucket _ (by simp)⟩
        · simp only [trieStep, insertOp, constHash_app]
          rw [hb]
          rfl
        · simp [refStep, refFind]
  | chain l hl =>
      have hb := traverseGo_root_chain keyOf (.created p) .Overwrite l
      rw [bucketStep_insert] at hb
      refine ⟨chainK MAX_LEVELS (.data
          ((l.filter fun q => decide (¬ keyOf q = keyOf p)) ++ [p])),
        .opt (l.find? fun q => decide (keyOf q = keyOf p)),
        (l.filter fun q => decide (¬ keyOf q = keyOf p)) ++ [p],
        ?_, ?_, ConstInv.chain _ (by simp)⟩
      · simp only [trieStep, insertOp, constHash_app]
        rw [hb]
        rfl
      · simp [refStep, refFind]

theorem constSim_goiw (keyOf : P → K) {t : Node P} {l : List P}
    (hInv : ConstInv t l) (k : K) (c : K → P) :
    ∃ (t2 : Node P) (o : Out P) (l2 : List P),
      trieStep constHash keyOf t (COp.goiw k c) = some (t2, o) ∧
      refStep keyOf l (COp.goiw k c) = (l2, o) ∧ ConstInv t2 l2 := by
  cases hInv with
  | nil =>
      refine ⟨.data [c k], .opt (some (c k)), [c k], rfl, ?_,
        .bucket _ (by simp)⟩
      simp [refStep, refFind]
  | bucket l hl =>
      by_cases hsp : ∃ q : P, l = [q] ∧ ¬ keyOf q = k
      · obtain ⟨q, rfl, hk⟩ := hsp
        have hfind : ([q].find? fun q2 => decide (keyOf q2 = k)) = none := by
          simp [List.find?_cons, hk]
        have hc := traverseGo_root_cascade keyOf (.future k c) .IfMissing q hk
        rw [bucketStep_goiw] at hc
        simp only [hfind] at hc
        have hfilter := filter_of_find_none keyOf k [q] hfind
        rw [hfilter] at hc
        refine ⟨chainK MAX_LEVELS (.data ([q] ++ [c k])), .opt (some (c k)),
          [q] ++ [c k], ?_, ?_, ConstInv.chain _ (by simp)⟩
        · simp only [trieStep, getOrInsertWithOp, constHash_app]
          rw [hc]
          rfl
        · simp [refStep, refFind, hfind]
      · push_neg at hsp
        have hb := traverseGo_root_bucket keyOf (.future k c) .IfMissing l hsp
        rw [bucketStep_goiw] at hb
        cases hfind : l.find? fun q => decide (keyOf q = k) with
        | some o =>
            simp only [hfind] at hb
            refine ⟨.data l, .opt (some o), l, ?_, ?_, .bucket l hl⟩
            · simp only [trieStep, getOrInsertWithOp, constHash_app]
              rw [hb]
              rfl
            · simp [refStep, refFind, hfind]
        | none =>
            simp only [hfind] at hb
            have hfilter := filter_of_find_none keyOf k l hfind
            rw [hfilter] at hb
            refine ⟨.data (l ++ [c k]), .opt (some (c k)), l ++ [c k],
              ?_, ?_, .bucket _ (by simp)⟩
            · simp only [trieStep, getOrInsertWithOp, constHash_app]
              rw [hb]
              rfl
            · simp [refStep, refFind, hfind]
  | chain l hl =>
      have hb := traverseGo_root_chain keyOf (.future k c) .IfMissing l
      rw [bucketStep_goiw] at hb
      cases hfind : l.find? fun q => decide (keyOf q = k) with
      | some o =>
          simp only [hfind] at hb
          refine ⟨chainK MAX_LEVELS (.data l), .opt (some o), l, ?_, ?_,
            .chain l hl⟩
          · simp only [trieStep, getOrInsertWithOp, constHash_app]
            rw [hb]
            rfl
          · simp [refStep, refFind, hfind]
      | none =>
          simp only [hfind] at hb
          have hfilter := filter_of_find_none keyOf k l hfind
          rw [hfilter] at hb
          refine ⟨chainK MAX_LEVELS (.data (l ++ [c k])), .opt (some (c k)),
            l ++ [c k], ?_, ?_, ConstInv.chain _ (by simp)⟩
          · simp only [trieStep, getOrInsertWithOp, constHash_app]
            rw [hb]
            rfl
          · simp [refStep, refFind, hfind]

theorem constSim_rem (keyOf : P → K) {t : Node P} {l : List P}
    (hInv : ConstInv t l) (k : K) :
    ∃ (t2 : Node P) (o : Out P) (l2 : List P),
      trieStep constHash keyOf t (COp.rem k) = some (t2, o) ∧
      refStep keyOf l (COp.rem k) = (l2, o) ∧ ConstInv t2 l2 := by
  cases hInv with
  | nil =>
      refine ⟨.null, .opt none, [], rfl, ?_, .nil⟩
      simp [refStep]
  | bucket l hl =>
      have h0 := removeGo_data keyOf k 0 l 0
      simp only [removeScan_eq keyOf k l] at h0
      cases hdel : (l.filter fun q => decide (keyOf q = k)).getLast? with
      | none =>
          simp only [hdel] at h0
          have hfe : (l.filter fun q => decide (keyOf q = k)) = [] :=
            List.getLast?_eq_none_iff.mp hdel
          have hfo := filterOut_of_no_match keyOf k l hfe
          refine ⟨.data l, .opt none, l, ?_, ?_, .bucket l hl⟩
          · simp only [trieStep, removeOp, constHash_app]
            rw [h0]
          · simp only [refStep]
            rw [hfo, hdel]
      | some d =>
          simp only [hdel] at h0
          by_cases hemp : (l.filter fun q => decide (¬ keyOf q = k)).isEmpty =
              true
          · rw [if_pos hemp] at h0
            have hnil : (l.filter fun q => decide (¬ keyOf q = k)) = [] :=
              List.isEmpty_iff.mp hemp
            refine ⟨.null, .opt (some d), [], ?_, ?_, .nil⟩
            · simp only [trieStep, removeOp, constHash_app]
              rw [h0]
            · simp only [refStep]
              rw [hnil, hdel]
          · rw [if_neg hemp] at h0
            have hne : (l.filter fun q => decide (¬ keyOf q = k)) ≠ [] := by
              intro hcon
              exact hemp (by rw [hcon]; rfl)
            refine ⟨.data (l.filter fun q => decide (¬ keyOf q = k)),
              .opt (some d), l.filter fun q => decide (¬ keyOf q = k),
              ?_, ?_, .bucket _ hne⟩
            · simp only [trieStep, removeOp, constHash_app]
              rw [h0]
            · simp only [refStep]
              rw [hdel]
  | chain l hl =>
      have h0 := removeGo_chain keyOf k MAX_LEVELS l 0
      simp only [removeScan_eq keyOf k l] at h0
      cases hdel : (l.filter fun q => decide (keyOf q = k)).getLast? with
      | none =>
          simp only [hdel] at h0
          have hfe : (l.filter fun q => decide (keyOf q = k)) = [] :=
            List.getLast?_eq_none_iff.mp hdel
          have hfo := filterOut_of_no_match keyOf k l hfe
          refine ⟨chainK MAX_LEVELS (.data l), .opt none, l, ?_, ?_,
            .chain l hl⟩
          · simp only [trieStep, removeOp, constHash_app]
            rw [h0]
          · simp only [refStep]
            rw [hfo, hdel]
      | some d =>
          simp only [hdel] at h0
          by_cases hemp : (l.filter fun q => decide (¬ keyOf q = k)).isEmpty =
              true
          · rw [if_pos hemp] at h0
            have hnil : (l.filter fun q => decide (¬ keyOf q = k)) = [] :=
              List.isEmpty_iff.mp hemp
            refine ⟨.null, .opt (some d), [], ?_, ?_, .nil⟩
            · simp only [trieStep, removeOp, constHash_app]
              rw [h0]
            · simp only [refStep]
              rw [hnil, hdel]
          · rw [if_neg hemp] at h0
            have hne : (l.filter fun q => decide (¬ keyOf q = k)) ≠ [] := by
              intro hcon
              exact hemp (by rw [hcon]; rfl)
            refine ⟨.data (l.filter fun q => decide (¬ keyOf q = k)),
              .opt (some d), l.filter fun q => decide (¬ keyOf q = k),
              ?_, ?_, .bucket _ hne⟩
            · simp only [trieStep, removeOp, constHash_app]
              rw [h0]
            · simp only [refStep]
              rw [hdel]

end ConstSimSteps

section ConstRun

variable {P K : Type} [DecidableEq K]

theorem constStep_sim (keyOf : P → K) {t : Node P} {l : List P}
    (hInv : ConstInv t l) (op : COp P K) :
    ∃ (t2 : Node P) (o : Out P) (l2 : List P),
      trieStep constHash keyOf t op = some (t2, o) ∧
      refStep keyOf l op = (l2, o) ∧ ConstInv t2 l2 := by
  cases op with
  | ins p => exact constSim_ins keyOf hInv p
  | get k => exact constSim_get keyOf hInv k
  | rem k => exact constSim_rem keyOf hInv k
  | goiw k c => exact constSim_goiw keyOf hInv k c
  | empt => exact constSim_empt keyOf hInv

theorem constRun_sim (keyOf : P → K) :
    ∀ (ops : List (COp P K)) {t : Node P} {l : List P}, ConstInv t l →
      ∃ (t2 : Node P) (outs : List (Out P)) (l2 : List P),
        trieRun constHash keyOf t ops = some (t2, outs) ∧
        refRun keyOf l ops = (l2, outs) ∧ ConstInv t2 l2 := by
  intro ops
  induction ops with
  | nil =>
      intro t l hInv
      exact ⟨t, [], l, rfl, rfl, hInv⟩
  | cons op rest ih =>
      intro t l hInv
      obtain ⟨t1, o, l1, hts, hrs, hInv1⟩ := constStep_sim keyOf hInv op
      obtain ⟨t2, outs, l2, htr, hrr, hInv2⟩ := ih hInv1
      refine ⟨t2, o :: outs, l2, ?_, ?_, hInv2⟩
      · simp [trieRun, hts, htr]
      · simp [refRun, hrs, hrr]

theorem depth_chainK (l : List P) :
    ∀ n : Nat, (chainK n (Node.data l) : Node P).depth = n + 1 := by
  intro n
  induction n with
  | zero => rfl
  | succ m ih =>
      show (Node.inner (cellsSingle 0 (chainK m (.data l)))).depth = m + 2
      have hr : List.range LEVEL_CELLS =
          [0, 1, 2, 3, 4, 5, 6, 7, 8, 9, 10, 11, 12, 13, 14, 15] := rfl
      rw [Node.depth, hr]
      simp only [List.map_cons, List.map_nil, cellsSingle]
      norm_num [ih, show (Node.null : Node P).depth = 0 from rfl,
        List.foldr_cons, List.foldr_nil]
      omega

end ConstRun

/--
Claim C1 counterexample: under the constant-zero hasher (NoHasher), after
insert (0,0) then insert (1,1) on an empty trie the tree has depth 17: the
two payloads do share one leaf bucket, but the split cascade leaves it
hanging below a chain of 16 inner nodes, and the root is an inner node —
not a bucket hanging directly off the root — refuting the claimed depth 1. -/
theorem C1_depth_counterexample :
    ((insertOp constHash Prod.fst Node.null ((0, 0) : Nat × Nat)).bind
        fun r => insertOp constHash Prod.fst r.1 (1, 1)).map
      (fun r => (r.1.depth, r.1.isData, r.1.isNull, r.2)) =
      some (17, false, false, none) ∧
    (17 : Nat) ≠ 1 := by
  exact ⟨rfl, by decide⟩

/--
Claim C1 (amended): under the pathological constant-zero hasher, every
sequence of insert / get / remove / get_or_insert_with / is_empty
operations from the empty trie produces exactly the outputs of the
reference mapping model (a list of payloads), so the reference-model
properties hold for all operations; all payloads sit in a single leaf
bucket holding exactly the model's payloads — but that bucket is either
the root itself (depth 1) or hangs below a full chain of MAX_LEVELS = 16
one-cell inner nodes (depth 17, the shape a split cascade leaves), not
always directly off the root; the tree is null exactly when the model is
empty. -/
theorem C1_const_hasher_model_equivalence {P K : Type} [DecidableEq K]
    (keyOf : P → K) (ops : List (COp P K)) :
    ∃ (t : Node P) (outs : List (Out P)) (l : List P),
      trieRun constHash keyOf Node.null ops = some (t, outs) ∧
      refRun keyOf [] ops = (l, outs) ∧
      ((t = Node.null ∧ l = []) ∨ t = Node.data l ∨
        (t = chainK MAX_LEVELS (Node.data l) ∧ ¬ l = [])) ∧
      t.depth ≤ MAX_LEVELS + 1 ∧
      (l = [] → t = Node.null ∧ t.depth = 0) := by
  obtain ⟨t, outs, l, htr, hrr, hInv⟩ := constRun_sim keyOf ops ConstInv.nil
  refine ⟨t, outs, l, htr, hrr, ?_, ?_, ?_⟩
  · cases hInv with
    | nil => exact Or.inl ⟨rfl, rfl⟩
    | bucket l hl => exact Or.inr (Or.inl rfl)
    | chain l hl => exact Or.inr (Or.inr ⟨rfl, hl⟩)
  · cases hInv with
    | nil =>
        simp [show (Node.null : Node P).depth = 0 from rfl]
    | bucket l hl =>
        simp only [show (Node.data l : Node P).depth = 1 from rfl,
          MAX_LEVELS, LEVEL_BITS]
        omega
    | chain l hl => exact le_of_eq (depth_chainK l MAX_LEVELS)
  · intro hle
    cases hInv with
    | nil => exact ⟨rfl, rfl⟩
    | bucket l hl => exact absurd hle hl
    | chain l hl => exact absurd hle hl

/-- Witness for the amended C1 at a concrete operation sequence. -/
theorem C1_const_hasher_model_equivalence_witness :
    ∃ (t : Node (Nat × Nat)) (outs : List (Out (Nat × Nat)))
      (l : List (Nat × Nat)),
      trieRun constHash Prod.fst Node.null
          [COp.ins (0, 1), COp.ins (5, 2), COp.get 0, COp.rem 5,
            COp.empt] = some (t, outs) ∧
      refRun Prod.fst []
          [COp.ins (0, 1), COp.ins (5, 2), COp.get 0, COp.rem 5,
            COp.empt] = (l, outs) ∧
      ((t = Node.null ∧ l = []) ∨ t = Node.data l ∨
        (t = chainK MAX_LEVELS (Node.data l) ∧ ¬ l = [])) ∧
      t.depth ≤ MAX_LEVELS + 1 ∧
      (l = [] → t = Node.null ∧ t.depth = 0) :=
  C1_const_hasher_model_equivalence Prod.fst
    [COp.ins (0, 1), COp.ins (5, 2), COp.get 0, COp.rem 5, COp.empt]
